import Mathlib

/-!
Verification of the variant-extraction core of `local-cli/runAndroid/runAndroid.js`.

The build-description file content is modelled as a `List Char` (the JS code
indexes the string by position; all inputs of interest are ASCII, so the
UTF-16 code-unit view and the character view coincide).  An out-of-range JS
index yields `undefined`; wherever the source would then loop forever or
throw a `TypeError`, the model returns `none`.  Thus `none` uniformly marks
"the JS function does not return normally at this input" and `some` carries
the value the JS function returns.
-/

/-- The character `U+007B` (opening curly brace). -/
def lbrace : Char := Char.ofNat 123

/-- The character `U+007D` (closing curly brace). -/
def rbrace : Char := Char.ofNat 125

/-- JS `\w`: ASCII letters, digits and underscore. -/
def isWordChar (c : Char) : Bool :=
  (decide ('a' ≤ c) && decide (c ≤ 'z')) ||
  (decide ('A' ≤ c) && decide (c ≤ 'Z')) ||
  (decide ('0' ≤ c) && decide (c ≤ '9')) ||
  decide (c = '_')

/-- JS `\s`, restricted to its ASCII members (space, tab, LF, VT, FF, CR);
the Unicode space characters also matched by JS `\s` play no role here. -/
def isJsSpace (c : Char) : Bool :=
  decide (c = ' ') || decide (c = '\t') || decide (c = '\n') ||
  decide (c = '\r') || decide (c = Char.ofNat 11) || decide (c = Char.ofNat 12)

/-- First loop of `findPreviousTerm`: `while (content[endPos] === ' ') --endPos;`.
Only the space character `' '` is skipped.  `none` models the JS position `-1`
(reached when position 0 still holds a space); any other stop position is
returned as `some`.  A position at or past the end of the content holds JS
`undefined`, which is not `' '`, so the loop stops there. -/
def skipSpaces (content : List Char) : Nat → Option Nat
  | 0 => if content[0]? = some ' ' then none else some 0
  | p + 1 => if content[p + 1]? = some ' ' then skipSpaces content p else some (p + 1)

/-- Second loop of `findPreviousTerm`: `while (/\w/.exec(content[endPos])) ...`.
Characters are collected right-to-left.  When the position leaves the content
(below 0 or past the end) the JS expression `content[endPos]` is `undefined`,
and `/\w/.exec(undefined)` coerces `undefined` to the string "undefined",
which matches `\w` — the JS loop then never terminates; modelled as `none`. -/
def collectWord (content : List Char) : Nat → List Char → Option (List Char)
  | 0, acc =>
    match content[0]? with
    | none => none
    | some c => if isWordChar c then none else some acc
  | p + 1, acc =>
    match content[p + 1]? with
    | none => none
    | some c => if isWordChar c then collectWord content p (c :: acc) else some acc

/-- `findPreviousTerm(content, endPos)` from the source: skip spaces backward,
then collect the maximal backward run of word characters.  `none` models the
non-terminating executions described at `skipSpaces`/`collectWord`. -/
def findPreviousTerm (content : List Char) (endPos : Nat) : Option String :=
  match skipSpaces content endPos with
  | none => none
  | some p => (collectWord content p []).map (fun w => String.mk w)

/-- Case-insensitive literal match: does `pat` occur at the head of `s`
when both sides are lowered (JS regex `i` flag on an ASCII literal)? -/
def ciMatch : List Char → List Char → Bool
  | _, [] => true
  | [], _ :: _ => false
  | c :: cs, p :: ps => (c.toLower == p.toLower) && ciMatch cs ps

/-- One attempt of the regex `variantType\s+\x7b` (flags `ig`) at position `i`:
the literal block name case-insensitively, then a maximal nonempty whitespace
run, then an opening brace.  Returns the JS `lastIndex` (the index just past
the brace) on success. -/
def matchHeaderAt (content vt : List Char) (i : Nat) : Option Nat :=
  if ciMatch (content.drop i) vt then
    let j := i + vt.length
    let k := ((content.drop j).takeWhile isJsSpace).length
    if 1 ≤ k ∧ content[j + k]? = some lbrace then some (j + k + 1) else none
  else none

/-- `regex.exec(content)` for `variantType\s+\x7b`: leftmost match, returning
the `lastIndex` just past the matched opening brace. -/
def findHeader (content vt : List Char) : Option Nat :=
  (List.range content.length).findSome? (fun i => matchHeaderAt content vt i)

/-- `if (variants.indexOf(previousTerm) === -1) variants.push(previousTerm)`:
append `t` unless already present. -/
def pushNew (variants : List String) (t : String) : List String :=
  if variants.contains t then variants else variants ++ [t]

/-- The `while (counter > 0)` loop of `findVariants`.  `rest` is the suffix of
`content` from index `pos` (the caller maintains `rest = content.drop pos`).
Each step examines `content[pos]`: an opening brace increments the counter and,
on the 1 → 2 transition, records `findPreviousTerm(content, pos - 1)`; a
closing brace decrements it; the loop stops when the counter reaches 0,
returning the variant list and the position just past the balancing brace.
When `rest` is exhausted with a positive counter, `content[pos]` is JS
`undefined` forever after, the counter never changes, and the JS loop never
terminates: modelled as `none`.  (`pos` is at least 1 in every reachable call,
so the `Nat` subtraction `pos - 1` agrees with the JS `pos - 1`.) -/
def scanGo (content : List Char) : List Char → Nat → Nat → List String → Option (List String × Nat)
  | [], pos, counter, variants => if counter = 0 then some (variants, pos) else none
  | c :: rest, pos, counter, variants =>
    if counter = 0 then some (variants, pos)
    else if c = lbrace then
      if counter = 1 then
        match findPreviousTerm content (pos - 1) with
        | none => none
        | some t => scanGo content rest (pos + 1) (counter + 1) (pushNew variants t)
      else scanGo content rest (pos + 1) (counter + 1) variants
    else if c = rbrace then scanGo content rest (pos + 1) (counter - 1) variants
    else scanGo content rest (pos + 1) counter variants

/-- The brace scan of `findVariants`, started at absolute position `pos`. -/
def scanLoop (content : List Char) (pos counter : Nat) (variants : List String) :
    Option (List String × Nat) :=
  scanGo content (content.drop pos) pos counter variants

/-- Modelled from the spec (§3 invariant and §4.1): the position just past the
closing delimiter that brings the nesting depth back to 0, counting every
character from `pos` on (no character is skipped).  Used only to compare the
source's scan against the balance-preservation property; `none` when the
content ends first. -/
def specBalanceEnd : List Char → Nat → Nat → Option Nat
  | [], pos, counter => if counter = 0 then some pos else none
  | c :: rest, pos, counter =>
    if counter = 0 then some pos
    else if c = lbrace then specBalanceEnd rest (pos + 1) (counter + 1)
    else if c = rbrace then specBalanceEnd rest (pos + 1) (counter - 1)
    else specBalanceEnd rest (pos + 1) counter

/-- `findVariants(filePath, variantType, defaultVariants)` with the file
content passed directly.  On a header match the scan starts at
`variantStartPos + 1` — one past the regex's `lastIndex`, exactly as in the
source (`let pos = variantStartPos + 1`). -/
def findVariants (content variantType : List Char) (defaultVariants : List String) :
    Option (List String) :=
  match findHeader content variantType with
  | none => some defaultVariants
  | some variantStartPos =>
    (scanLoop content (variantStartPos + 1) 1 defaultVariants).map (fun r => r.1)

/-- State of the caller's `defaultVariants` array after `findVariants` returns.
In the source, `const variants = defaultVariants || []` aliases the caller's
array and `variants.push(...)` mutates it in place, and that same array is
returned — so the post-state of the argument equals the returned list. -/
def findVariantsPost (content variantType : List Char) (defaultVariants : List String) :
    Option (List String) :=
  findVariants content variantType defaultVariants

/-- A JS value reaching this code: `undefined`, `null`, or a string. -/
inductive JsVal where
  | undef : JsVal
  | null : JsVal
  | str : List Char → JsVal
deriving DecidableEq

/-- JS `ToString` as applied by `RegExp.prototype.exec` to its argument. -/
def jsToString : JsVal → List Char
  | JsVal.undef => "undefined".toList
  | JsVal.null => "null".toList
  | JsVal.str s => s

/-- JS truthiness of the values above: `undefined`, `null` and `""` are falsy. -/
def jsTruthy : JsVal → Bool
  | JsVal.str s => !s.isEmpty
  | _ => false

/-- `Array.prototype.join` element conversion: `undefined` and `null` become
the empty string. -/
def joinStr : JsVal → List Char
  | JsVal.str s => s
  | _ => []

/-- Does some alternative of `alts` match at position `i` of `s`
(case-insensitively)? -/
def altMatchesAt (alts : List (List Char)) (s : List Char) (i : Nat) : Bool :=
  alts.any (fun alt => ciMatch (s.drop i) alt)

/-- `new RegExp(alts.join('|'), 'gi').exec(s).index`: the leftmost position at
which some alternative matches.  (Every alternative reaching this code is a
run of word characters or empty, so the joined pattern has no metacharacters.) -/
def alternationIndex (alts : List (List Char)) (s : List Char) : Option Nat :=
  (List.range (s.length + 1)).find? (fun i => altMatchesAt alts s i)

/-- `splitVariant(gradleFilePath, variant)` with the gradle file content passed
directly.  On a match at index `i` the result is
`[variant.substring(i), variant.substring(0, i)]`; with no match it is
`[variant, null]`.  When `variant` is not a string the regex still runs against
`ToString(variant)`, but a successful match then crashes on
`variant.substring` (`none`). -/
def splitVariant (gradleContent : List Char) (variant : JsVal) : Option (JsVal × JsVal) :=
  match findVariants gradleContent "buildTypes".toList ["debug", "release"] with
  | none => none
  | some buildTypes =>
    match alternationIndex (buildTypes.map String.toList) (jsToString variant) with
    | none => some (variant, JsVal.null)
    | some i =>
      match variant with
      | JsVal.str s => some (JsVal.str (s.drop i), JsVal.str (s.take i))
      | _ => none

/-- One attempt of `enableSeparateBuildPerCPUArchitecture\s+=\s+([\w]+)` at
position `i` (case-sensitive): the literal key, a nonempty whitespace run, an
equals sign, another nonempty whitespace run, then the captured nonempty word
run. -/
def matchSeparateAt (content : List Char) (i : Nat) : Option (List Char) :=
  let key := "enableSeparateBuildPerCPUArchitecture".toList
  if key.isPrefixOf (content.drop i) then
    let j := i + key.length
    let k1 := ((content.drop j).takeWhile isJsSpace).length
    if 1 ≤ k1 ∧ content[j + k1]? = some '=' then
      let j2 := j + k1 + 1
      let k2 := ((content.drop j2).takeWhile isJsSpace).length
      if 1 ≤ k2 then
        let w := (content.drop (j2 + k2)).takeWhile isWordChar
        if 1 ≤ w.length then some w else none
      else none
    else none
  else none

/-- `isSeparateBuildEnabled(gradleFilePath)` with the file content passed
directly.  When the regex has no match, the source evaluates `null[1]` and
throws a raw `TypeError`; that crash is modelled as `none`.  Otherwise the
captured word, lower-cased, is compared with `"true"`. -/
def isSeparateBuildEnabled (content : List Char) : Option Bool :=
  ((List.range content.length).findSome? (fun i => matchSeparateAt content i)).map
    (fun w => w.map Char.toLower == "true".toList)

/-- `getManifestFile(variant)` with the content of `app/build.gradle` passed
directly.  Splits the variant, then assembles the path segments: the fixed
base, the flavor when truthy, `x86` when the separate-build flag is enabled,
the build type (JS `join` turns a non-string element into the empty segment),
and the manifest file name, joined with `/`. -/
def getManifestFile (gradleContent : List Char) (variant : JsVal) : Option (List Char) :=
  match splitVariant gradleContent variant with
  | none => none
  | some ret =>
    match isSeparateBuildEnabled gradleContent with
    | none => none
    | some sep =>
      let buildType := ret.1
      let flavor := ret.2
      let paths0 := ["app/build/intermediates/manifests/full".toList]
      let paths1 := if jsTruthy flavor then paths0 ++ [joinStr flavor] else paths0
      let paths2 := if sep then paths1 ++ ["x86".toList] else paths1
      let paths3 := paths2 ++ [joinStr buildType, "AndroidManifest.xml".toList]
      some (List.intercalate "/".toList paths3)

theorem mem_pushNew_self (vs : List String) (t : String) : t ∈ pushNew vs t := by
  unfold pushNew
  split
  · next h => simpa using h
  · exact List.mem_append_right _ (List.mem_singleton_self t)

theorem pushNew_of_mem (vs : List String) (t : String) (h : t ∈ vs) : pushNew vs t = vs := by
  simp [pushNew, List.elem_eq_mem, h]

theorem pushNew_nodup (vs : List String) (t : String) (h : vs.Nodup) : (pushNew vs t).Nodup := by
  unfold pushNew
  split
  · exact h
  · next hc =>
    have ht : t ∉ vs := by simpa using hc
    simp [List.nodup_append, h, ht]

theorem scanGo_extends (content : List Char) :
    ∀ (rest : List Char) (pos counter : Nat) (vs res : List String) (p : Nat),
    scanGo content rest pos counter vs = some (res, p) →
    ∃ extra, res = vs ++ extra ∧ ∀ t ∈ extra, t ∉ vs := by
  intro rest
  induction rest with
  | nil =>
    intro pos counter vs res p h
    by_cases h0 : counter = 0
    · simp [scanGo, h0] at h
      exact ⟨[], by simp [h.1], by simp⟩
    · simp [scanGo, h0] at h
  | cons c rest ih =>
    intro pos counter vs res p h
    by_cases h0 : counter = 0
    · simp [scanGo, h0] at h
      exact ⟨[], by simp [h.1], by simp⟩
    · by_cases hb : c = lbrace
      · by_cases h1 : counter = 1
        · simp only [scanGo, if_neg h0, if_pos hb, if_pos h1] at h
          cases hf : findPreviousTerm content (pos - 1) with
          | none => rw [hf] at h; simp at h
          | some t =>
            rw [hf] at h
            obtain ⟨extra, hres, hnew⟩ := ih (pos + 1) (counter + 1) (pushNew vs t) res p h
            by_cases hc : t ∈ vs
            · refine ⟨extra, ?_, ?_⟩
              · rw [hres, pushNew_of_mem vs t hc]
              · intro x hx
                have := hnew x hx
                rw [pushNew_of_mem vs t hc] at this
                exact this
            · refine ⟨t :: extra, ?_, ?_⟩
              · rw [hres]
                simp [pushNew, List.elem_eq_mem, hc]
              · intro x hx
                rcases List.mem_cons.mp hx with rfl | hx
                · exact hc
                · have := hnew x hx
                  simp [pushNew, List.elem_eq_mem, hc] at this
                  exact this.1
        · simp only [scanGo, if_neg h0, if_pos hb, if_neg h1] at h
          exact ih _ _ _ _ _ h
      · by_cases hr : c = rbrace
        · simp only [scanGo, if_neg h0, if_neg hb, if_pos hr] at h
          exact ih _ _ _ _ _ h
        · simp only [scanGo, if_neg h0, if_neg hb, if_neg hr] at h
          exact ih _ _ _ _ _ h

theorem scanGo_nodup (content : List Char) :
    ∀ (rest : List Char) (pos counter : Nat) (vs res : List String) (p : Nat),
    vs.Nodup → scanGo content rest pos counter vs = some (res, p) → res.Nodup := by
  intro rest
  induction rest with
  | nil =>
    intro pos counter vs res p hnd h
    by_cases h0 : counter = 0
    · simp [scanGo, h0] at h
      exact h.1 ▸ hnd
    · simp [scanGo, h0] at h
  | cons c rest ih =>
    intro pos counter vs res p hnd h
    by_cases h0 : counter = 0
    · simp [scanGo, h0] at h
      exact h.1 ▸ hnd
    · by_cases hb : c = lbrace
      · by_cases h1 : counter = 1
        · simp only [scanGo, if_neg h0, if_pos hb, if_pos h1] at h
          cases hf : findPreviousTerm content (pos - 1) with
          | none => rw [hf] at h; simp at h
          | some t =>
            rw [hf] at h
            exact ih _ _ _ _ _ (pushNew_nodup vs t hnd) h
        · simp only [scanGo, if_neg h0, if_pos hb, if_neg h1] at h
          exact ih _ _ _ _ _ hnd h
      · by_cases hr : c = rbrace
        · simp only [scanGo, if_neg h0, if_neg hb, if_pos hr] at h
          exact ih _ _ _ _ _ hnd h
        · simp only [scanGo, if_neg h0, if_neg hb, if_neg hr] at h
          exact ih _ _ _ _ _ hnd h

theorem scanGo_idem (content : List Char) :
    ∀ (rest : List Char) (pos counter : Nat) (vs res : List String) (p : Nat),
    scanGo content rest pos counter vs = some (res, p) →
    scanGo content rest pos counter res = some (res, p) := by
  intro rest
  induction rest with
  | nil =>
    intro pos counter vs res p h
    by_cases h0 : counter = 0
    · simp [scanGo, h0] at h ⊢
      exact h.2
    · simp [scanGo, h0] at h
  | cons c rest ih =>
    intro pos counter vs res p h
    by_cases h0 : counter = 0
    · simp [scanGo, h0] at h ⊢
      exact h.2
    · by_cases hb : c = lbrace
      · by_cases h1 : counter = 1
        · simp only [scanGo, if_neg h0, if_pos hb, if_pos h1] at h ⊢
          cases hf : findPreviousTerm content (pos - 1) with
          | none => rw [hf] at h; simp at h
          | some t =>
            rw [hf] at h
            have hmem : t ∈ res := by
              obtain ⟨extra, hres, -⟩ :=
                scanGo_extends content rest (pos + 1) (counter + 1) (pushNew vs t) res p h
              rw [hres]
              exact List.mem_append_left _ (mem_pushNew_self vs t)
            show scanGo content rest (pos + 1) (counter + 1) (pushNew res t) = some (res, p)
            rw [pushNew_of_mem res t hmem]
            exact ih _ _ _ _ _ h
        · simp only [scanGo, if_neg h0, if_pos hb, if_neg h1] at h ⊢
          exact ih _ _ _ _ _ h
      · by_cases hr : c = rbrace
        · simp only [scanGo, if_neg h0, if_neg hb, if_pos hr] at h ⊢
          exact ih _ _ _ _ _ h
        · simp only [scanGo, if_neg h0, if_neg hb, if_neg hr] at h ⊢
          exact ih _ _ _ _ _ h

/-- C9 (counterexample): `findVariants` is quantified over every defaults list,
and a defaults list that itself contains two equal entries is returned as-is
when the block name does not occur, so the returned VariantList can contain
two equal entries. -/
theorem findVariants_dup_counterexample :
    findVariants ([] : List Char) "buildTypes".toList ["debug", "debug"] =
      some ["debug", "debug"] ∧ ¬ (["debug", "debug"] : List String).Nodup := by
  constructor
  · decide
  · decide

/-- C9 (amended): for every file content, block name and duplicate-free
defaults list, the VariantList returned by `findVariants` never contains two
equal entries — the scan only appends identifiers not already present. -/
theorem findVariants_nodup (content vt : List Char) (defaults res : List String)
    (hd : defaults.Nodup) (h : findVariants content vt defaults = some res) : res.Nodup := by
  unfold findVariants at h
  cases hh : findHeader content vt with
  | none =>
    rw [hh] at h
    simp at h
    exact h ▸ hd
  | some s =>
    rw [hh] at h
    have h' : (scanGo content (content.drop (s + 1)) (s + 1) 1 defaults).map (fun r => r.1)
        = some res := h
    cases hsc : scanGo content (content.drop (s + 1)) (s + 1) 1 defaults with
    | none => rw [hsc] at h'; simp at h'
    | some rp =>
      obtain ⟨r, p⟩ := rp
      rw [hsc] at h'
      simp at h'
      exact h' ▸ scanGo_nodup content _ _ _ _ _ _ hd hsc

/-- C9 (witness for the amended theorem): the defaults `["debug", "release"]`
are duplicate-free and so is the extracted list for a file with a `demo`
child block. -/
theorem findVariants_nodup_witness :
    (["debug", "release"] : List String).Nodup ∧
      (["debug", "release", "demo"] : List String).Nodup :=
  ⟨by decide,
    findVariants_nodup "buildTypes \x7b demo \x7b \x7d \x7d".toList "buildTypes".toList
      ["debug", "release"] ["debug", "release", "demo"] (by decide) (by decide)⟩

/-- C6 (counterexample): `findVariants` is not side-effect free over its
defaults argument: the source aliases the caller's array
(`const variants = defaultVariants || []`) and pushes into it, so after a call
that discovers `demo` the caller's array holds
`["debug", "release", "demo"]`, not the `["debug", "release"]` passed in. -/
theorem findVariants_mutates_defaults :
    findVariantsPost "buildTypes \x7b demo \x7b \x7d \x7d".toList "buildTypes".toList
        ["debug", "release"] = some ["debug", "release", "demo"] ∧
      (["debug", "release", "demo"] : List String) ≠ ["debug", "release"] := by
  constructor
  · decide
  · decide

/-- C6 (amended): `findVariants` mutates the defaults array in place — after
the call the caller's array equals the returned list, and that returned list
is the passed defaults extended only by appending newly discovered
identifiers that were not already present. -/
theorem findVariants_append_only (content vt : List Char) (defaults res : List String)
    (h : findVariants content vt defaults = some res) :
    findVariantsPost content vt defaults = some res ∧
      ∃ extra, res = defaults ++ extra ∧ ∀ t ∈ extra, t ∉ defaults := by
  refine ⟨h, ?_⟩
  unfold findVariants at h
  cases hh : findHeader content vt with
  | none =>
    rw [hh] at h
    simp at h
    exact ⟨[], by simp [h], by simp⟩
  | some s =>
    rw [hh] at h
    have h' : (scanGo content (content.drop (s + 1)) (s + 1) 1 defaults).map (fun r => r.1)
        = some res := h
    cases hsc : scanGo content (content.drop (s + 1)) (s + 1) 1 defaults with
    | none => rw [hsc] at h'; simp at h'
    | some rp =>
      obtain ⟨r, p⟩ := rp
      rw [hsc] at h'
      simp at h'
      exact h' ▸ scanGo_extends content _ _ _ _ _ _ hsc

/-- C6 (witness for the amended theorem): concrete run discovering `demo`. -/
theorem findVariants_append_only_witness :
    findVariantsPost "buildTypes \x7b demo \x7b \x7d \x7d".toList "buildTypes".toList
        ["debug", "release"] = some ["debug", "release", "demo"] ∧
      ∃ extra, (["debug", "release", "demo"] : List String) = ["debug", "release"] ++ extra ∧
        ∀ t ∈ extra, t ∉ (["debug", "release"] : List String) :=
  findVariants_append_only "buildTypes \x7b demo \x7b \x7d \x7d".toList "buildTypes".toList
    ["debug", "release"] ["debug", "release", "demo"] (by decide)

/-- C10: `findVariants` is idempotent.  In the source the second of two runs
over unchanged content operates on the same (mutated) array the first run
returned; it rediscovers the same identifiers, finds each already present, and
returns the list unchanged, in the same order. -/
theorem findVariants_idempotent (content vt : List Char) (defaults res : List String)
    (h : findVariants content vt defaults = some res) :
    findVariants content vt res = some res := by
  unfold findVariants at h ⊢
  cases hh : findHeader content vt with
  | none => exact rfl
  | some s =>
    rw [hh] at h
    have h' : (scanGo content (content.drop (s + 1)) (s + 1) 1 defaults).map (fun r => r.1)
        = some res := h
    cases hsc : scanGo content (content.drop (s + 1)) (s + 1) 1 defaults with
    | none => rw [hsc] at h'; simp at h'
    | some rp =>
      obtain ⟨r, p⟩ := rp
      rw [hsc] at h'
      simp at h'
      rw [h'] at hsc
      show (scanGo content (content.drop (s + 1)) (s + 1) 1 res).map (fun r => r.1) = some res
      rw [scanGo_idem content _ _ _ _ _ _ hsc]
      simp

/-- C10 (witness): running the extraction again on its own output returns it
unchanged. -/
theorem findVariants_idempotent_witness :
    findVariants "buildTypes \x7b demo \x7b \x7d \x7d".toList "buildTypes".toList
      ["debug", "release", "demo"] = some ["debug", "release", "demo"] :=
  findVariants_idempotent "buildTypes \x7b demo \x7b \x7d \x7d".toList "buildTypes".toList
    ["debug", "release"] ["debug", "release", "demo"] (by decide)

/-- C1: with the variant absent and the separate-build flag textually true,
the source does not default the base type to `debug`.  The undefined variant
flows through `splitVariant` (the alternation finds no base type inside the
string "undefined"), `paths.push(buildType)` pushes `undefined`, and
`Array.join` renders it as an empty segment: the returned path is
`app/build/intermediates/manifests/full/x86//AndroidManifest.xml`, not the
`.../x86/debug/AndroidManifest.xml` the claim states. -/
theorem getManifestFile_no_variant_empty_segment :
    getManifestFile "enableSeparateBuildPerCPUArchitecture = true".toList JsVal.undef =
        some "app/build/intermediates/manifests/full/x86//AndroidManifest.xml".toList ∧
      getManifestFile "enableSeparateBuildPerCPUArchitecture = true".toList JsVal.undef ≠
        some "app/build/intermediates/manifests/full/x86/debug/AndroidManifest.xml".toList := by
  constructor
  · decide
  · decide

/-- C2 (counterexample): for variant `demoRelease` with the separate-build
flag textually false, the returned path is not the claimed
`.../demo/release/AndroidManifest.xml`: the base-type segment keeps the case
of the variant substring. -/
theorem getManifestFile_demoRelease_not_lowercase :
    getManifestFile "enableSeparateBuildPerCPUArchitecture = false".toList
        (JsVal.str "demoRelease".toList) ≠
      some "app/build/intermediates/manifests/full/demo/release/AndroidManifest.xml".toList := by
  decide

/-- C2 (amended): the returned path is
`app/build/intermediates/manifests/full/demo/Release/AndroidManifest.xml` —
the base-type segment is `variant.substring(match.index)`, so it preserves the
variant's capitalization (`Release`). -/
theorem getManifestFile_demoRelease_path :
    getManifestFile "enableSeparateBuildPerCPUArchitecture = false".toList
        (JsVal.str "demoRelease".toList) =
      some "app/build/intermediates/manifests/full/demo/Release/AndroidManifest.xml".toList := by
  decide

/-- C3: on a build-description file with no
`enableSeparateBuildPerCPUArchitecture` assignment, `isSeparateBuildEnabled`
does not produce a handled MalformedConfig failure: `content.match(...)` is
`null` and the source dereferences `null[1]`, a raw TypeError, modelled as
`none`. -/
theorem isSeparateBuildEnabled_missing_flag_crashes :
    isSeparateBuildEnabled "android \x7b \x7d".toList = none := by
  decide

/-- C4: on content whose matched block is never brace-balanced
(`"buildTypes \x7b"`), the scan does not signal any error: `pos` is
incremented past the end of the content forever (`content[pos]` is JS
`undefined`, so the counter never changes), modelled as `none` — no
MalformedConfig failure exists in the source. -/
theorem findVariants_unbalanced_reads_past_end :
    findVariants "buildTypes \x7b".toList "buildTypes".toList ["debug", "release"] = none := by
  decide

/-- C5: the scan is not balance-preserving.  It starts at
`variantStartPos + 1`, skipping the first character inside the block.  For the
well-formed content `"buildTypes \x7b\x7d"` the header match ends at position
12, the balance-tracking scan (which skips nothing) terminates just past the
balancing delimiter at position 13, but the source's scan starts at 13 and
runs off the end (`none`).  For `"buildTypes \x7b\x7b\x7d\x7d"` the
balance-preserving end is 15, while the source's scan stops at 14 — one
delimiter early. -/
theorem scanLoop_not_balance_preserving :
    findHeader "buildTypes \x7b\x7d".toList "buildTypes".toList = some 12 ∧
      specBalanceEnd ("buildTypes \x7b\x7d".toList.drop 12) 12 1 = some 13 ∧
      scanLoop "buildTypes \x7b\x7d".toList 13 1 ["debug", "release"] = none ∧
      specBalanceEnd ("buildTypes \x7b\x7b\x7d\x7d".toList.drop 12) 12 1 = some 15 ∧
      scanLoop "buildTypes \x7b\x7b\x7d\x7d".toList 13 1 ["debug", "release"] =
        some (["debug", "release"], 14) := by
  refine ⟨by decide, by decide, by decide, by decide, by decide⟩

/-- C7: splitting `demoRelease` against the default base types finds
`release` case-insensitively at index 4 and returns base type `Release` with
flavor `demo`.  The empty gradle content has no `buildTypes` block, so the
base types are the defaults `["debug", "release"]`. -/
theorem splitVariant_demoRelease :
    splitVariant ([] : List Char) (JsVal.str "demoRelease".toList) =
      some (JsVal.str "Release".toList, JsVal.str "demo".toList) := by
  decide

/-- C8 (counterexample): a child header whose name is separated from its
opening delimiter by a tab does not yield that name.  In
`"buildTypes \x7b x\t\x7b \x7d \x7d"` the 1 → 2 transition happens at
position 15 and `findPreviousTerm(content, 14)` sees the tab, which is not the
space character `' '`, stops immediately, collects no word characters, and
captures the empty identifier instead of `x`. -/
theorem findPreviousTerm_tab_not_skipped :
    findPreviousTerm "buildTypes \x7b x\t\x7b \x7d \x7d".toList 14 = some "" ∧
      findVariants "buildTypes \x7b x\t\x7b \x7d \x7d".toList "buildTypes".toList
        ["debug", "release"] = some ["debug", "release", ""] ∧
      ("" : String) ≠ "x" := by
  refine ⟨by decide, by decide, by decide⟩

theorem get_append_last (l : List Char) (a : Char) (h : l.length < (l ++ [a]).length) :
    (l ++ [a]).get ⟨l.length, h⟩ = a := by
  simp [List.getElem_append_right]

theorem get_append_first (l : List Char) (a : Char) (i : Nat) (hi : i < l.length)
    (h : i < (l ++ [a]).length) : (l ++ [a]).get ⟨i, h⟩ = l.get ⟨i, hi⟩ := by
  simp [List.getElem_append_left hi]

theorem getElem?_append_cons_zero (l1 : List Char) (b : Char) (l2 : List Char) :
    (l1 ++ b :: l2)[l1.length]? = some b := by
  rw [List.getElem?_append_right (le_refl _)]
  simp

theorem getElem?_append_cons (l1 : List Char) (b : Char) (l2 : List Char) (m : Nat) :
    (l1 ++ b :: l2)[l1.length + 1 + m]? = l2[m]? := by
  rw [List.getElem?_append_right (by omega : l1.length ≤ l1.length + 1 + m)]
  have e : l1.length + 1 + m - l1.length = m + 1 := by omega
  rw [e]
  simp

theorem word_ne_space (c : Char) (h : isWordChar c = true) : c ≠ ' ' := by
  intro he
  rw [he] at h
  exact absurd h (by decide)

theorem skipSpaces_add (content : List Char) (L : Nat) :
    ∀ k : Nat, (∀ m, 1 ≤ m → m ≤ k → content[L + m]? = some ' ') →
      skipSpaces content (L + k) = skipSpaces content L := by
  intro k
  induction k with
  | zero => intro _; rfl
  | succ n ih =>
    intro h
    have h1 : content[L + n + 1]? = some ' ' := by
      have h2 := h (n + 1) (by omega) (by omega)
      have e : L + (n + 1) = L + n + 1 := by omega
      rw [e] at h2
      exact h2
    have e : L + (n + 1) = L + n + 1 := by omega
    rw [e]
    simp only [skipSpaces]
    rw [if_pos h1]
    exact ih (fun m hm1 hm2 => h m hm1 (by omega))

theorem skipSpaces_stop (content : List Char) (L : Nat) (c : Char)
    (hc : content[L]? = some c) (hcs : c ≠ ' ') : skipSpaces content L = some L := by
  cases L with
  | zero => simp [skipSpaces, hc, hcs]
  | succ p => simp [skipSpaces, hc, hcs]

theorem collectWord_run (content : List Char) (B : Nat) (b : Char)
    (hb : content[B]? = some b) (hbw : isWordChar b = false) :
    ∀ (name : List Char), (∀ c ∈ name, isWordChar c = true) →
      (∀ m (hm : m < name.length), content[B + 1 + m]? = some (name.get ⟨m, hm⟩)) →
      ∀ acc, collectWord content (B + name.length) acc = some (name ++ acc) := by
  intro name
  induction name using List.reverseRecOn with
  | nil =>
    intro _ _ acc
    simp only [List.length_nil, Nat.add_zero, List.nil_append]
    cases B with
    | zero => simp [collectWord, hb, hbw]
    | succ p => simp [collectWord, hb, hbw]
  | append_singleton ns d ih =>
    intro hw hidx acc
    have hm' : ns.length < (ns ++ [d]).length := by simp
    have hd : content[B + ns.length + 1]? = some d := by
      have h1 := hidx ns.length hm'
      have e : B + 1 + ns.length = B + ns.length + 1 := by omega
      rw [e] at h1
      rw [h1]
      congr 1
      exact get_append_last ns d hm'
    have hwd : isWordChar d = true := hw d (by simp)
    have e2 : B + (ns ++ [d]).length = B + ns.length + 1 := by
      simp [List.length_append]
      omega
    rw [e2]
    simp only [collectWord]
    rw [hd]
    show (if isWordChar d then collectWord content (B + ns.length) (d :: acc) else some acc) =
      some (ns ++ [d] ++ acc)
    rw [hwd, if_pos rfl]
    have hw' : ∀ c ∈ ns, isWordChar c = true := fun c hc => hw c (by simp [hc])
    have hidx' : ∀ m (hm : m < ns.length), content[B + 1 + m]? = some (ns.get ⟨m, hm⟩) := by
      intro m hm
      have hmm : m < (ns ++ [d]).length := by simp; omega
      have h1 := hidx m hmm
      rw [h1]
      congr 1
      exact get_append_first ns d m hm hmm
    rw [ih hw' hidx' (d :: acc)]
    simp

/-- C8 (amended): the identifier captured by `findPreviousTerm` before an
opening delimiter is obtained by skipping backward over trailing space
characters `' '` only — not arbitrary whitespace — and then collecting the
maximal backward run of word characters.  Stated for any position laid out as
anchor `b` (neither word character nor space), then the name, then a run of
spaces: the captured identifier is exactly the name. -/
theorem findPreviousTerm_skips_spaces_only
    (a : List Char) (b : Char) (name sp rest : List Char)
    (hbw : isWordChar b = false) (hbs : b ≠ ' ')
    (hname : ∀ c ∈ name, isWordChar c = true)
    (hsp : ∀ c ∈ sp, c = ' ') :
    findPreviousTerm (a ++ b :: (name ++ (sp ++ rest)))
      (a.length + name.length + sp.length) = some (String.mk name) := by
  have fact_b : (a ++ b :: (name ++ (sp ++ rest)))[a.length]? = some b :=
    getElem?_append_cons_zero a b _
  have fact_name : ∀ m (hm : m < name.length),
      (a ++ b :: (name ++ (sp ++ rest)))[a.length + 1 + m]? = some (name.get ⟨m, hm⟩) := by
    intro m hm
    rw [getElem?_append_cons a b _ m]
    rw [List.getElem?_append_left (by omega : m < name.length)]
    simp [List.getElem?_eq_getElem hm]
  have fact_sp : ∀ m, 1 ≤ m → m ≤ sp.length →
      (a ++ b :: (name ++ (sp ++ rest)))[a.length + name.length + m]? = some ' ' := by
    intro m h1 h2
    have e : a.length + name.length + m = a.length + 1 + (name.length + (m - 1)) := by omega
    rw [e, getElem?_append_cons a b _ (name.length + (m - 1))]
    rw [List.getElem?_append_right (by omega : name.length ≤ name.length + (m - 1))]
    have e2 : name.length + (m - 1) - name.length = m - 1 := by omega
    rw [e2]
    have hm : m - 1 < sp.length := by omega
    rw [List.getElem?_append_left hm]
    rw [List.getElem?_eq_getElem hm]
    have hsp' : sp[m - 1] = ' ' := hsp _ (List.getElem_mem hm)
    rw [hsp']
  have hskip : skipSpaces (a ++ b :: (name ++ (sp ++ rest)))
      (a.length + name.length + sp.length) =
      skipSpaces (a ++ b :: (name ++ (sp ++ rest))) (a.length + name.length) :=
    skipSpaces_add _ (a.length + name.length) sp.length fact_sp
  have hchar : ∃ d, (a ++ b :: (name ++ (sp ++ rest)))[a.length + name.length]? = some d ∧
      d ≠ ' ' := by
    by_cases hn : name = []
    · subst hn
      exact ⟨b, by simpa using fact_b, hbs⟩
    · have hlen : 0 < name.length := List.length_pos.mpr hn
      have hm : name.length - 1 < name.length := by omega
      have h1 := fact_name (name.length - 1) hm
      have e : a.length + 1 + (name.length - 1) = a.length + name.length := by omega
      rw [e] at h1
      refine ⟨name.get ⟨name.length - 1, hm⟩, h1, ?_⟩
      exact word_ne_space _ (hname _ (name.get_mem _ _))
  obtain ⟨d, hd, hds⟩ := hchar
  have hstop := skipSpaces_stop _ _ d hd hds
  have hcollect := collectWord_run _ a.length b fact_b hbw name hname fact_name []
  simp only [findPreviousTerm]
  rw [hskip, hstop]
  show (collectWord (a ++ b :: (name ++ (sp ++ rest))) (a.length + name.length) []).map
      (fun w => String.mk w) = some (String.mk name)
  rw [hcollect]
  simp

/-- C8 (witness for the amended theorem): an anchor brace, the name `x`, one
trailing space, then the child's opening brace — the capture yields `x`. -/
theorem findPreviousTerm_skips_spaces_only_witness :
    findPreviousTerm (([] : List Char) ++ lbrace :: (['x'] ++ ([' '] ++ [lbrace])))
        (([] : List Char).length + (['x'] : List Char).length + ([' '] : List Char).length) =
      some (String.mk ['x']) :=
  findPreviousTerm_skips_spaces_only [] lbrace ['x'] [' '] [lbrace] (by decide) (by decide)
    (by decide) (by decide)
